import Mathlib

/-!
# Verification of `rm_duplicates.py`

A shallow embedding of the duplicate-file remover `rm_duplicates.py` together
with proofs about its core operations.

Modelling conventions:
* A filesystem is an association list from path strings to byte contents
  (`FS`); `os.remove` deletes the entry at a path, failing when it is absent.
* Python's `dict` preserves insertion order, so the registry
  `Unique_content_directory.files` is an association list from digest to group.
* Python's `list.sort(key=len)` is a *stable* sort by string length.  Stable
  sorting by a total key is extensionally unique, so it is embedded here as
  the stable insertion sort `sortByLen`.
* Machine detail that does not matter to the claims (hash internals operate on
  bytes modulo 2³²) is carried out on `Nat` with explicit `% 2^32`.
-/

namespace RmDuplicates

/-! ## Filesystem model -/

/-- A filesystem: a finite association of path strings to file contents
(lists of bytes).  Paths act as unique keys. -/
abbrev FS := List (String × List Nat)

/-- Look up the content stored at path `p`. -/
def fsLookup (fs : FS) (p : String) : Option (List Nat) :=
  match fs with
  | [] => none
  | (q, c) :: rest => if q = p then some c else fsLookup rest p

/-- Embeds `os.remove`: delete the file at path `p`; `none` models the `OSError`
raised when no file exists at `p`. -/
def os_remove (fs : FS) (p : String) : Option FS :=
  match fsLookup fs p with
  | none => none
  | some _ => some (fs.filter (fun kv => decide (kv.1 ≠ p)))

/-! ## `Unique_content`: one group of files sharing a digest -/

/-- Embeds `class Unique_content`: one unique file content.  `digest` and `file`
must hold values at all times; `rest` holds the list of duplicates; `size`
holds the file size in bytes. -/
structure Unique_content where
  digest : String
  file : String
  size : Nat
  rest : List String
deriving Repr, DecidableEq

/-- Stable insertion of `x` into a list sorted by ascending string length:
`x` is placed before the first element whose length is not smaller, so an
element inserted later (i.e. occurring earlier in the original list) comes
before elements of equal length. -/
def insertByLen (x : String) : List String → List String
  | [] => [x]
  | y :: ys => if y.length < x.length then y :: insertByLen x ys else x :: y :: ys

/-- Embeds `list.sort(key=lambda s: len(s))`: Python's sort is stable, and a stable
sort by a total key is extensionally unique, so the stable insertion sort
is a faithful embedding. -/
def sortByLen (l : List String) : List String :=
  l.foldr insertByLen []

/-- Embeds `Unique_content.reorder`: append `self.file` to `self.rest`, sort by
length, and pop the head as the new `self.file`.  The sorted list is
nonempty (it permutes `rest ++ [file]`); the `[]` branch is unreachable. -/
def Unique_content.reorder (g : Unique_content) : Unique_content :=
  match sortByLen (g.rest ++ [g.file]) with
  | [] => g
  | f :: rs => { g with file := f, rest := rs }

/-- Helper for `Unique_content.remove_duplicates`, which pops files off the end of `self.rest`
and removes each from the filesystem; this helper performs the removals in
that order.  `none` models the uncaught `OSError` aborting the run. -/
def removeFiles (fs : FS) : List String → Option FS
  | [] => some fs
  | f :: rest =>
    match os_remove fs f with
    | none => none
    | some fs2 => removeFiles fs2 rest

/-- Embeds `Unique_content.remove_duplicates`: `while self.rest: os.remove(self.rest.pop())`.
`list.pop()` takes the last element first, so the removal order is
`rest.reverse`.  On success the group's `rest` is empty. -/
def Unique_content.remove_duplicates (g : Unique_content) (fs : FS) :
    Option (Unique_content × FS) :=
  match removeFiles fs g.rest.reverse with
  | none => none
  | some fs2 => some ({ g with rest := [] }, fs2)

/-- Embeds `Unique_content.get_redundancy_size`: total size in bytes of all
duplicates. -/
def Unique_content.get_redundancy_size (g : Unique_content) : Nat :=
  g.size * g.rest.length

/-- Embeds `Unique_content.get_redundant_files_count`: total count of all
duplicates. -/
def Unique_content.get_redundant_files_count (g : Unique_content) : Nat :=
  g.rest.length

/-- Embeds `'\n'.join(rows)`. -/
def joinLines : List String → String
  | [] => ""
  | [x] => x
  | x :: y :: xs => x ++ "\n" ++ joinLines (y :: xs)

/-- Embeds `Unique_content.__str__`: a `#`-marked head line for the kept file,
then one space-marked line per duplicate. -/
def Unique_content.render (g : Unique_content) : String :=
  let head := "#" ++ g.digest ++ "\t" ++ g.file
  match g.rest with
  | [] => head
  | _ =>
    let rows := g.rest.map (fun f => " " ++ g.digest ++ "\t" ++ f)
    head ++ "\n" ++ joinLines rows

/-! ## Content fingerprinter: `file_digest` (SHA-1 over the file's bytes) -/

/-- Truncate to a 32-bit word. -/
def w32 (n : Nat) : Nat := n % 4294967296

/-- Rotate the 32-bit word `n` left by `s` bits. -/
def rotl (s n : Nat) : Nat :=
  w32 (n <<< s) ||| (w32 n >>> (32 - s))

/-- The 8-byte big-endian encoding of `n` (used for the bit-length field of
SHA-1 padding). -/
def toBytesBE8 (n : Nat) : List Nat :=
  [n >>> 56, n >>> 48, n >>> 40, n >>> 32, n >>> 24, n >>> 16, n >>> 8, n].map
    (· % 256)

/-- SHA-1 padding: append `0x80`, zero bytes up to 56 mod 64, then the
original length in bits as 8 big-endian bytes. -/
def sha1pad (msg : List Nat) : List Nat :=
  let zeros := (119 - msg.length % 64) % 64
  msg ++ (128 :: List.replicate zeros 0) ++ toBytesBE8 (msg.length * 8)

/-- Assemble big-endian 32-bit words from a byte list (length a multiple
of 4 after padding). -/
def bytesToWords : List Nat → List Nat
  | b0 :: b1 :: b2 :: b3 :: rest =>
    (((b0 % 256) <<< 24) ||| ((b1 % 256) <<< 16) ||| ((b2 % 256) <<< 8) |||
      (b3 % 256)) :: bytesToWords rest
  | _ => []

/-- Split a word list into successive chunks of 16 words. -/
def chunks16 (ws : List Nat) : List (List Nat) :=
  if _hne : ws = [] then []
  else ws.take 16 :: chunks16 (ws.drop 16)
termination_by ws.length
decreasing_by
  have : 0 < ws.length := List.length_pos.mpr _hne
  simp only [List.length_drop]
  omega

/-- Message-schedule extension: perform `k` more steps of
`w[i] = rotl 1 (w[i-3] xor w[i-8] xor w[i-14] xor w[i-16])`. -/
def sha1extend : Nat → List Nat → List Nat
  | 0, ws => ws
  | k + 1, ws =>
    let n := ws.length
    sha1extend k (ws ++ [rotl 1 ((ws.getD (n - 3) 0) ^^^ (ws.getD (n - 8) 0) ^^^
      (ws.getD (n - 14) 0) ^^^ (ws.getD (n - 16) 0))])

/-- The SHA-1 round function `f` for round `i`. -/
def sha1f (i b c d : Nat) : Nat :=
  if i < 20 then (b &&& c) ||| ((b ^^^ 4294967295) &&& d)
  else if i < 40 then b ^^^ c ^^^ d
  else if i < 60 then (b &&& c) ||| (b &&& d) ||| (c &&& d)
  else b ^^^ c ^^^ d

/-- The SHA-1 round constant for round `i`. -/
def sha1k (i : Nat) : Nat :=
  if i < 20 then 1518500249
  else if i < 40 then 1859775393
  else if i < 60 then 2400959708
  else 3395469782

/-- One 80-round SHA-1 compression over an extended chunk, starting from
round `i` and state `(a, b, c, d, e)`. -/
def sha1rounds (i : Nat) (st : Nat × Nat × Nat × Nat × Nat) :
    List Nat → Nat × Nat × Nat × Nat × Nat
  | [] => st
  | w :: ws =>
    let (a, b, c, d, e) := st
    let temp := w32 (rotl 5 a + sha1f i b c d + e + sha1k i + w)
    sha1rounds (i + 1) (temp, a, rotl 30 b, c, d) ws

/-- Process one 16-word chunk: extend to 80 words, run the rounds, add the
result into the running digest state. -/
def sha1chunk (h : Nat × Nat × Nat × Nat × Nat) (chunk : List Nat) :
    Nat × Nat × Nat × Nat × Nat :=
  let ws := sha1extend 64 chunk
  let (h0, h1, h2, h3, h4) := h
  let (a, b, c, d, e) := sha1rounds 0 (h0, h1, h2, h3, h4) ws
  (w32 (h0 + a), w32 (h1 + b), w32 (h2 + c), w32 (h3 + d), w32 (h4 + e))

/-- The hexadecimal digit characters. -/
def hexDigit (n : Nat) : Char :=
  "0123456789abcdef".toList.getD n '0'

/-- The `digits`-character lowercase hexadecimal rendering of `n`. -/
def toHex : Nat → Nat → List Char
  | _, 0 => []
  | n, k + 1 => toHex (n / 16) k ++ [hexDigit (n % 16)]

/-- Embeds `hashlib.sha1(content).hexdigest()`: the 40-character lowercase
hexadecimal SHA-1 digest of a byte string. -/
def sha1hex (msg : List Nat) : String :=
  let ws := bytesToWords (sha1pad msg)
  let (h0, h1, h2, h3, h4) :=
    (chunks16 ws).foldl sha1chunk
      (1732584193, 4023233417, 2562383102, 271733878, 3285377520)
  String.mk (toHex h0 8 ++ toHex h1 8 ++ toHex h2 8 ++ toHex h3 8 ++ toHex h4 8)

/-- Embeds `file_digest(file)`: open the file, read its full content, and return
the SHA-1 hex digest.  `none` models the `OSError` when the file cannot be
opened. -/
def file_digest (fs : FS) (file : String) : Option String :=
  (fsLookup fs file).map sha1hex

/-! ## `Unique_content_directory`: the registry -/

/-- Embeds `class Unique_content_directory`: container and controller of
`Unique_content` instances.  `self.files` is a `dict` keyed by digest;
Python dicts preserve insertion order, hence an association list. -/
structure Unique_content_directory where
  files : List (String × Unique_content)
deriving Repr, DecidableEq

/-- Embeds `Unique_content_directory.reorder`: reorder every group. -/
def Unique_content_directory.reorder (d : Unique_content_directory) :
    Unique_content_directory :=
  { files := d.files.map (fun kv => (kv.1, kv.2.reorder)) }

/-- Embeds `Unique_content_directory.remove_singles`: keep only the groups whose
`rest` is nonempty (`if v.rest`). -/
def Unique_content_directory.remove_singles (d : Unique_content_directory) :
    Unique_content_directory :=
  { files := d.files.filter (fun kv => decide (kv.2.rest ≠ [])) }

/-- Helper for `Unique_content_directory.remove_duplicates`, which iterates the groups in dict
order, calling `Unique_content.remove_duplicates` on each; this helper
threads the filesystem through that loop.  `none` models the uncaught
`OSError` from a failed removal aborting the loop. -/
def removeGroups (fs : FS) : List (String × Unique_content) → Option FS
  | [] => some fs
  | (_, g) :: gs =>
    match removeFiles fs g.rest.reverse with
    | none => none
    | some fs2 => removeGroups fs2 gs

/-- Embeds `Unique_content_directory.remove_duplicates`: remove the duplicates of
every group from the filesystem. -/
def Unique_content_directory.remove_duplicates (d : Unique_content_directory)
    (fs : FS) : Option FS :=
  removeGroups fs d.files

/-- Embeds `Unique_content_directory.get_redundancy_size`: `total += v.get_redundancy_size()`
over the groups. -/
def Unique_content_directory.get_redundancy_size
    (d : Unique_content_directory) : Nat :=
  d.files.foldl (fun total kv => total + kv.2.get_redundancy_size) 0

/-- Embeds `Unique_content_directory.get_redundant_files_count`:
`total += v.get_redundant_files_count()` over the groups. -/
def Unique_content_directory.get_redundant_files_count
    (d : Unique_content_directory) : Nat :=
  d.files.foldl (fun total kv => total + kv.2.get_redundant_files_count) 0

/-- The two summary lines appended by `Unique_content_directory.__str__`:
`'#\t{0} files can be deleted freeing\n#\t{1} bytes of space'`. -/
def Unique_content_directory.stats (d : Unique_content_directory) : String :=
  "#\t" ++ toString d.get_redundant_files_count ++
    " files can be deleted freeing\n#\t" ++
    toString d.get_redundancy_size ++ " bytes of space"

/-- `Unique_content_directory.__str__`: the rendered groups followed by the
summary lines. -/
def Unique_content_directory.render (d : Unique_content_directory) : String :=
  let body := joinLines (d.files.map (fun kv => kv.2.render))
  if body ≠ "" then body ++ "\n" ++ d.stats else d.stats

/-! ## Tree walker -/

/-- One directory entry as `os.listdir`/`os.path` classify it.  A symlink to
a directory carries the listing of its target so that "never traversed into"
is expressible; `other` covers entries that are neither regular files nor
directories (sockets, fifos, broken links). -/
inductive Entry where
  | file (name : String)
  | dir (name : String) (children : List Entry)
  | symlinkToFile (name : String)
  | symlinkToDir (name : String) (children : List Entry)
  | other (name : String)
deriving Repr

/-- The entry's name within its directory. -/
def Entry.name : Entry → String
  | .file n => n
  | .dir n _ => n
  | .symlinkToFile n => n
  | .symlinkToDir n _ => n
  | .other n => n

/-- Embeds `os.path.isfile`, which follows symlinks: true for regular files and symlinks
to regular files. -/
def Entry.isfile : Entry → Bool
  | .file _ => true
  | .symlinkToFile _ => true
  | _ => false

/-- Embeds `os.path.isdir`, which follows symlinks: true for directories and symlinks to
directories. -/
def Entry.isdir : Entry → Bool
  | .dir _ _ => true
  | .symlinkToDir _ _ => true
  | _ => false

/-- Embeds `os.path.islink`. -/
def Entry.islink : Entry → Bool
  | .symlinkToFile _ => true
  | .symlinkToDir _ _ => true
  | _ => false

/-- The listing of the directory an entry denotes (after following links);
empty for non-directories. -/
def Entry.children : Entry → List Entry
  | .dir _ cs => cs
  | .symlinkToDir _ cs => cs
  | _ => []

/-- Embeds `os.path.join(dirname, name)` for a relative `name`. -/
def pathJoin (dirname nm : String) : String :=
  dirname ++ "/" ++ nm

theorem Entry.sizeOf_children_lt {c e : Entry} (h : c ∈ e.children) :
    sizeOf c < sizeOf e := by
  cases e with
  | file n => simp [Entry.children] at h
  | dir n cs =>
    simp only [Entry.children] at h
    have := List.sizeOf_lt_of_mem h
    simp only [Entry.dir.sizeOf_spec]
    omega
  | symlinkToFile n => simp [Entry.children] at h
  | symlinkToDir n cs =>
    simp only [Entry.children] at h
    have := List.sizeOf_lt_of_mem h
    simp only [Entry.symlinkToDir.sizeOf_spec]
    omega
  | other n => simp [Entry.children] at h

/-- The body of `walk`'s loop for a single entry `e` of directory `dirname`:
yield `path` when it is a non-link regular file, recurse when it is a
non-link directory, skip otherwise. -/
def walkEntry (dirname : String) (e : Entry) : List String :=
  let path := pathJoin dirname e.name
  if e.isfile && !e.islink then [path]
  else if e.isdir && !e.islink then
    e.children.attach.flatMap (fun c => walkEntry path c.1)
  else []
termination_by e
decreasing_by exact Entry.sizeOf_children_lt c.2

/-- Embeds `walk(dirname)`: iterate `os.listdir(dirname)` (here: the listing
`entries` of `dirname`), yielding files and recursing into
subdirectories. -/
def walk (dirname : String) (entries : List Entry) : List String :=
  entries.flatMap (walkEntry dirname)

/-! ## Specification-side characterizations -/

/-- The first element of a list achieving the minimal string length: the
member with the fewest characters, ties resolved in favour of the earliest
list position.  Used to characterise which member `reorder` keeps. -/
def firstShortest : List String → Option String
  | [] => none
  | x :: xs =>
    match firstShortest xs with
    | none => some x
    | some m => if x.length ≤ m.length then some x else some m

/-- The lines of `Unique_content.__str__` as the spec describes them: one
line per member, the survivor line marked `#`, each duplicate line marked
with a space, the digest and path tab-separated after the marker. -/
def memberLines (g : Unique_content) : List String :=
  ("#" ++ g.digest ++ "\t" ++ g.file) ::
    g.rest.map (fun f => " " ++ g.digest ++ "\t" ++ f)

/-! ## Lemmas about the stable sort by length -/

theorem insertByLen_perm (x : String) (l : List String) :
    (insertByLen x l).Perm (x :: l) := by
  induction l with
  | nil => simp [insertByLen]
  | cons y ys ih =>
    by_cases h : y.length < x.length
    · simp only [insertByLen, if_pos h]
      exact ((ih.cons y).trans (List.Perm.swap x y ys))
    · simp [insertByLen, if_neg h]

theorem sortByLen_perm (l : List String) : (sortByLen l).Perm l := by
  induction l with
  | nil => simp [sortByLen]
  | cons x xs ih =>
    have : sortByLen (x :: xs) = insertByLen x (sortByLen xs) := rfl
    rw [this]
    exact (insertByLen_perm x (sortByLen xs)).trans (ih.cons x)

theorem insertByLen_pairwise {x : String} {l : List String}
    (h : l.Pairwise (fun a b => a.length ≤ b.length)) :
    (insertByLen x l).Pairwise (fun a b => a.length ≤ b.length) := by
  induction l with
  | nil => simp [insertByLen]
  | cons y ys ih =>
    rcases List.pairwise_cons.mp h with ⟨hy, hys⟩
    by_cases hlt : y.length < x.length
    · simp only [insertByLen, if_pos hlt]
      refine List.pairwise_cons.mpr ⟨?_, ih hys⟩
      intro z hz
      have hz' : z ∈ x :: ys := (insertByLen_perm x ys).mem_iff.mp hz
      rcases List.mem_cons.mp hz' with rfl | hz''
      · omega
      · exact hy z hz''
    · simp only [insertByLen, if_neg hlt]
      refine List.pairwise_cons.mpr ⟨?_, h⟩
      intro z hz
      rcases List.mem_cons.mp hz with rfl | hz'
      · omega
      · have := hy z hz'
        omega

theorem sortByLen_pairwise (l : List String) :
    (sortByLen l).Pairwise (fun a b => a.length ≤ b.length) := by
  induction l with
  | nil => simp [sortByLen]
  | cons x xs ih => exact insertByLen_pairwise ih

theorem insertByLen_head? (x : String) (l : List String) :
    (insertByLen x l).head? =
      match l.head? with
      | none => some x
      | some y => if y.length < x.length then some y else some x := by
  cases l with
  | nil => rfl
  | cons y ys =>
    by_cases h : y.length < x.length <;>
      simp [insertByLen, h]

theorem sortByLen_head?_eq_firstShortest (l : List String) :
    (sortByLen l).head? = firstShortest l := by
  induction l with
  | nil => rfl
  | cons x xs ih =>
    have hs : sortByLen (x :: xs) = insertByLen x (sortByLen xs) := rfl
    rw [hs, insertByLen_head?, ih]
    cases hh : firstShortest xs with
    | none => simp [firstShortest, hh]
    | some y =>
      simp only [firstShortest, hh]
      by_cases hxy : x.length ≤ y.length
      · rw [if_neg (by omega), if_pos hxy]
      · rw [if_pos (by omega), if_neg hxy]

/-! ## Lemmas about `reorder` -/

theorem reorder_eq (g : Unique_content) :
    ∃ f rs, sortByLen (g.rest ++ [g.file]) = f :: rs ∧
      g.reorder = { g with file := f, rest := rs } := by
  cases hs : sortByLen (g.rest ++ [g.file]) with
  | nil =>
    exfalso
    have := (sortByLen_perm (g.rest ++ [g.file])).length_eq
    rw [hs] at this
    simp at this
  | cons f rs =>
    exact ⟨f, rs, rfl, by simp [Unique_content.reorder, hs]⟩

theorem reorder_members_perm (g : Unique_content) :
    (g.reorder.file :: g.reorder.rest).Perm (g.file :: g.rest) := by
  obtain ⟨f, rs, hs, hre⟩ := reorder_eq g
  rw [hre]
  have h1 : (f :: rs).Perm (g.rest ++ [g.file]) := by
    rw [← hs]; exact sortByLen_perm _
  have h2 : (g.rest ++ [g.file]).Perm (g.file :: g.rest) := by
    simp [@List.perm_append_comm _ g.rest [g.file]]
  exact h1.trans h2

theorem reorder_rest_sorted (g : Unique_content) :
    ∀ p ∈ g.reorder.rest, g.reorder.file.length ≤ p.length := by
  obtain ⟨f, rs, hs, hre⟩ := reorder_eq g
  rw [hre]
  intro p hp
  have hpw := sortByLen_pairwise (g.rest ++ [g.file])
  rw [hs] at hpw
  exact (List.pairwise_cons.mp hpw).1 p hp

/-! ## Claim theorems -/

/-- C1: after `reorder` is applied to every group of the registry, each
group's survivor path length is at most the path length of every member of
its duplicates list. -/
theorem claim1_reorder_survivor_shortest (d : Unique_content_directory) :
    ∀ kv ∈ d.reorder.files, ∀ p ∈ kv.2.rest, kv.2.file.length ≤ p.length := by
  intro kv hkv p hp
  simp only [Unique_content_directory.reorder, List.mem_map] at hkv
  obtain ⟨kv0, _, rfl⟩ := hkv
  exact reorder_rest_sorted kv0.2 p hp

theorem claim1_witness :
    (("d", Unique_content.mk "d" "a" 1 ["cc", "bbb"]) ∈
      (Unique_content_directory.mk
        [("d", Unique_content.mk "d" "bbb" 1 ["a", "cc"])]).reorder.files) ∧
    ("cc" : String) ∈ (Unique_content.mk "d" "a" 1 ["cc", "bbb"]).rest ∧
    ("a" : String).length ≤ ("cc" : String).length :=
  ⟨by decide, by decide,
    claim1_reorder_survivor_shortest
      (Unique_content_directory.mk
        [("d", Unique_content.mk "d" "bbb" 1 ["a", "cc"])])
      ("d", Unique_content.mk "d" "a" 1 ["cc", "bbb"]) (by decide)
      "cc" (by decide)⟩

/-- C2, counterexample: for the group whose provisional survivor `"ab"` was
encountered first and whose sole duplicate `"cd"` has the same length, the
claim's tie-break (earliest in encounter order, i.e. `"ab"`) disagrees with
the code, which keeps `"cd"`: the provisional survivor is appended *after*
the duplicates before the stable sort, so it loses length ties. -/
theorem claim2_counterexample :
    (Unique_content.mk "d0" "ab" 1 ["cd"]).reorder.file = "cd" ∧
    firstShortest
      ((Unique_content.mk "d0" "ab" 1 ["cd"]).file ::
        (Unique_content.mk "d0" "ab" 1 ["cd"]).rest) = some "ab" ∧
    ("cd" : String) ≠ "ab" := by
  refine ⟨by decide, by decide, by decide⟩

/-- C2, amended: `reorder` selects as survivor the member with the fewest
path characters from the list `duplicates ++ [provisional survivor]` (the
duplicates in original encounter order, the provisional survivor *last*),
ties resolved in favour of the earliest position in that list — so a
duplicate of minimal length beats the provisional survivor on ties. -/
theorem claim2_reorder_first_shortest (g : Unique_content) :
    some g.reorder.file = firstShortest (g.rest ++ [g.file]) := by
  obtain ⟨f, rs, hs, hre⟩ := reorder_eq g
  rw [hre, ← sortByLen_head?_eq_firstShortest, hs]
  rfl

/-- C10: `reorder` preserves a group's membership: survivor plus duplicates
form the same set before and after, and the group size is unchanged. -/
theorem claim10_reorder_preserves_members (g : Unique_content) :
    (∀ x, (x = g.reorder.file ∨ x ∈ g.reorder.rest) ↔
      (x = g.file ∨ x ∈ g.rest)) ∧
    g.reorder.rest.length = g.rest.length := by
  have hp := reorder_members_perm g
  constructor
  · intro x
    have := @List.Perm.mem_iff _ x _ _ hp
    simpa using this
  · have := hp.length_eq
    simpa using this

/-- C4: after pruning with `remove_singles`, every retained group has at
least one duplicate. -/
theorem claim4_remove_singles_nonempty (d : Unique_content_directory) :
    ∀ kv ∈ d.remove_singles.files, 1 ≤ kv.2.rest.length := by
  intro kv hkv
  simp only [Unique_content_directory.remove_singles, List.mem_filter,
    decide_eq_true_eq] at hkv
  have : kv.2.rest ≠ [] := hkv.2
  cases h : kv.2.rest with
  | nil => exact absurd h this
  | cons a l => simp [h]

theorem claim4_witness :
    (("d", Unique_content.mk "d" "f" 0 ["g"]) ∈
      (Unique_content_directory.mk
        [("e", Unique_content.mk "e" "x" 0 []),
         ("d", Unique_content.mk "d" "f" 0 ["g"])]).remove_singles.files) ∧
    1 ≤ (Unique_content.mk "d" "f" 0 ["g"]).rest.length :=
  ⟨by decide,
    claim4_remove_singles_nonempty
      (Unique_content_directory.mk
        [("e", Unique_content.mk "e" "x" 0 []),
         ("d", Unique_content.mk "d" "f" 0 ["g"])])
      ("d", Unique_content.mk "d" "f" 0 ["g"]) (by decide)⟩

theorem foldl_add_eq_sum {α : Type} (f : α → Nat) (l : List α) (init : Nat) :
    l.foldl (fun total kv => total + f kv) init = init + (l.map f).sum := by
  induction l generalizing init with
  | nil => simp
  | cons x xs ih => simp [ih, Nat.add_assoc]

/-- C5: the report summary states the total count of removable files — the
sum over all groups of the size of the duplicates list — and the total bytes
freed — the sum over all groups of `size * duplicates count`. -/
theorem claim5_stats_sums (d : Unique_content_directory) :
    d.stats =
      "#\t" ++ toString ((d.files.map (fun kv => kv.2.rest.length)).sum) ++
        " files can be deleted freeing\n#\t" ++
        toString ((d.files.map (fun kv => kv.2.size * kv.2.rest.length)).sum) ++
        " bytes of space" := by
  have hc : d.get_redundant_files_count =
      (d.files.map (fun kv => kv.2.rest.length)).sum := by
    simp [Unique_content_directory.get_redundant_files_count,
      Unique_content.get_redundant_files_count, foldl_add_eq_sum]
  have hs : d.get_redundancy_size =
      (d.files.map (fun kv => kv.2.size * kv.2.rest.length)).sum := by
    simp [Unique_content_directory.get_redundancy_size,
      Unique_content.get_redundancy_size, foldl_add_eq_sum]
  rw [Unique_content_directory.stats, hc, hs]

/-- C7: the rendering of a group is exactly one line per member, the
survivor line `#` ++ digest ++ TAB ++ path first, then one
`' '` ++ digest ++ TAB ++ path line per duplicate. -/
theorem claim7_render_memberLines (g : Unique_content) :
    g.render = joinLines (memberLines g) := by
  cases h : g.rest with
  | nil => simp [Unique_content.render, memberLines, h, joinLines]
  | cons r rs => simp [Unique_content.render, memberLines, h, joinLines]

/-! ## Lemmas about removal from the filesystem -/

theorem fsLookup_filter_ne (fs : FS) (p q : String) :
    fsLookup (fs.filter (fun kv => decide (kv.1 ≠ p))) q =
      if q = p then none else fsLookup fs q := by
  induction fs with
  | nil => simp [fsLookup]
  | cons kv rest ih =>
    obtain ⟨k, c⟩ := kv
    have hstep : ((k, c) :: rest).filter (fun kv => decide (kv.1 ≠ p)) =
        if k = p then rest.filter (fun kv => decide (kv.1 ≠ p))
        else (k, c) :: rest.filter (fun kv => decide (kv.1 ≠ p)) := by
      by_cases hkp : k = p <;> simp [List.filter, hkp]
    rw [hstep]
    by_cases hkp : k = p
    · rw [if_pos hkp, ih]
      subst hkp
      by_cases hqk : q = k
      · simp [hqk]
      · simp [fsLookup, hqk, Ne.symm hqk]
    · rw [if_neg hkp]
      by_cases hkq : k = q
      · rw [← hkq]
        simp [fsLookup, hkp]
      · have hlf : fsLookup ((k, c) :: rest.filter (fun kv => decide (kv.1 ≠ p))) q
            = fsLookup (rest.filter (fun kv => decide (kv.1 ≠ p))) q := by
          simp [fsLookup, hkq]
        rw [hlf, ih]
        by_cases hqp : q = p
        · simp [hqp]
        · simp [fsLookup, hqp, hkq]

theorem os_remove_lookup {fs fs2 : FS} {p : String}
    (h : os_remove fs p = some fs2) (q : String) :
    fsLookup fs2 q = if q = p then none else fsLookup fs q := by
  unfold os_remove at h
  cases hl : fsLookup fs p with
  | none => rw [hl] at h; exact absurd h (by simp)
  | some c =>
    rw [hl] at h
    have : fs2 = fs.filter (fun kv => decide (kv.1 ≠ p)) := by
      simpa using h.symm
    rw [this]
    exact fsLookup_filter_ne fs p q

theorem removeFiles_lookup_notMem {files : List String} {fs fs' : FS}
    (h : removeFiles fs files = some fs') {q : String} (hq : q ∉ files) :
    fsLookup fs' q = fsLookup fs q := by
  induction files generalizing fs with
  | nil => simp only [removeFiles] at h; injection h with h; rw [h]
  | cons f rest ih =>
    simp only [removeFiles] at h
    cases hr : os_remove fs f with
    | none => rw [hr] at h; exact absurd h (by simp)
    | some fs2 =>
      rw [hr] at h
      have hqf : q ≠ f := fun he => hq (he ▸ List.mem_cons_self f rest)
      have hqrest : q ∉ rest := fun hm => hq (List.mem_cons_of_mem f hm)
      rw [ih h hqrest, os_remove_lookup hr q, if_neg hqf]

theorem removeFiles_lookup_none {files : List String} {fs fs' : FS}
    (h : removeFiles fs files = some fs') {q : String}
    (hq : fsLookup fs q = none) : fsLookup fs' q = none := by
  induction files generalizing fs with
  | nil => simp only [removeFiles] at h; injection h with h; rw [← h]; exact hq
  | cons f rest ih =>
    simp only [removeFiles] at h
    cases hr : os_remove fs f with
    | none => rw [hr] at h; exact absurd h (by simp)
    | some fs2 =>
      rw [hr] at h
      refine ih h ?_
      rw [os_remove_lookup hr q]
      by_cases hqf : q = f <;> simp [hqf, hq]

theorem removeFiles_lookup_mem {files : List String} {fs fs' : FS}
    (h : removeFiles fs files = some fs') {p : String} (hp : p ∈ files) :
    fsLookup fs' p = none := by
  induction files generalizing fs with
  | nil => exact absurd hp (List.not_mem_nil p)
  | cons f rest ih =>
    simp only [removeFiles] at h
    cases hr : os_remove fs f with
    | none => rw [hr] at h; exact absurd h (by simp)
    | some fs2 =>
      rw [hr] at h
      rcases List.mem_cons.mp hp with rfl | hp'
      · exact removeFiles_lookup_none h (by simp [os_remove_lookup hr p])
      · exact ih h hp'

theorem removeGroups_lookup_notMem {gs : List (String × Unique_content)}
    {fs fs' : FS} (h : removeGroups fs gs = some fs') {q : String}
    (hq : ∀ kv ∈ gs, q ∉ kv.2.rest) :
    fsLookup fs' q = fsLookup fs q := by
  induction gs generalizing fs with
  | nil => simp only [removeGroups] at h; injection h with h; rw [h]
  | cons kv rest ih =>
    obtain ⟨k, g⟩ := kv
    simp only [removeGroups] at h
    cases hr : removeFiles fs g.rest.reverse with
    | none => rw [hr] at h; exact absurd h (by simp)
    | some fs2 =>
      rw [hr] at h
      have h1 : q ∉ g.rest.reverse := by
        simp only [List.mem_reverse]
        exact hq (k, g) (List.mem_cons_self _ _)
      rw [ih h (fun kv' hkv' => hq kv' (List.mem_cons_of_mem _ hkv')),
        removeFiles_lookup_notMem hr h1]

theorem removeGroups_lookup_none {gs : List (String × Unique_content)}
    {fs fs' : FS} (h : removeGroups fs gs = some fs') {q : String}
    (hq : fsLookup fs q = none) : fsLookup fs' q = none := by
  induction gs generalizing fs with
  | nil => simp only [removeGroups] at h; injection h with h; rw [← h]; exact hq
  | cons kv rest ih =>
    obtain ⟨k, g⟩ := kv
    simp only [removeGroups] at h
    cases hr : removeFiles fs g.rest.reverse with
    | none => rw [hr] at h; exact absurd h (by simp)
    | some fs2 =>
      rw [hr] at h
      exact ih h (removeFiles_lookup_none hr hq)

theorem removeGroups_lookup_dup {gs : List (String × Unique_content)}
    {fs fs' : FS} (h : removeGroups fs gs = some fs') :
    ∀ kv ∈ gs, ∀ p ∈ kv.2.rest, fsLookup fs' p = none := by
  induction gs generalizing fs with
  | nil => intro kv hkv; exact absurd hkv (List.not_mem_nil kv)
  | cons kv0 rest ih =>
    obtain ⟨k, g⟩ := kv0
    intro kv hkv p hp
    simp only [removeGroups] at h
    cases hr : removeFiles fs g.rest.reverse with
    | none => rw [hr] at h; exact absurd h (by simp)
    | some fs2 =>
      rw [hr] at h
      rcases List.mem_cons.mp hkv with rfl | hkv'
      · have : fsLookup fs2 p = none :=
          removeFiles_lookup_mem hr (List.mem_reverse.mpr hp)
        exact removeGroups_lookup_none h this
      · exact ih h kv hkv' p hp

/-- C3: when `remove_duplicates` succeeds on a registry in which no group's
survivor occurs in any duplicates list, every duplicate path of every group
is gone from the filesystem and every survivor path maps to exactly the
content it had before. -/
theorem claim3_remove_duplicates_effect (d : Unique_content_directory)
    (fs fs' : FS) (hok : d.remove_duplicates fs = some fs')
    (hdisj : ∀ kv ∈ d.files, ∀ kv' ∈ d.files, kv.2.file ∉ kv'.2.rest) :
    ∀ kv ∈ d.files,
      (∀ p ∈ kv.2.rest, fsLookup fs' p = none) ∧
      fsLookup fs' kv.2.file = fsLookup fs kv.2.file := by
  intro kv hkv
  constructor
  · exact removeGroups_lookup_dup hok kv hkv
  · exact removeGroups_lookup_notMem hok
      (fun kv' hkv' => hdisj kv hkv kv' hkv')

theorem claim3_witness :
    ((Unique_content_directory.mk
        [("d", Unique_content.mk "d" "a" 1 ["b"])]).remove_duplicates
      [("a", [7]), ("b", [7])] = some [("a", [7])]) ∧
    fsLookup [("a", [7])] "b" = none ∧
    fsLookup [("a", [7])] "a" = fsLookup [("a", [7]), ("b", [7])] "a" := by
  refine ⟨by decide, ?_, ?_⟩
  · exact (claim3_remove_duplicates_effect
      (Unique_content_directory.mk [("d", Unique_content.mk "d" "a" 1 ["b"])])
      [("a", [7]), ("b", [7])] [("a", [7])] (by decide) (by decide)
      ("d", Unique_content.mk "d" "a" 1 ["b"]) (by decide)).1 "b" (by decide)
  · exact (claim3_remove_duplicates_effect
      (Unique_content_directory.mk [("d", Unique_content.mk "d" "a" 1 ["b"])])
      [("a", [7]), ("b", [7])] [("a", [7])] (by decide) (by decide)
      ("d", Unique_content.mk "d" "a" 1 ["b"]) (by decide)).2

/-- C6, counterexample: on a registry of two groups where the first group's
sole duplicate `"missing"` is absent from the filesystem, `remove_duplicates`
returns `none` — the uncaught `OSError` aborts the whole operation — even
though the second group's duplicate `"b"` is present and removable.  The
failure is therefore fatal and prevents the deletions of the other group,
contradicting the claim. -/
theorem claim6_counterexample :
    (Unique_content_directory.mk
      [("d1", Unique_content.mk "d1" "s1" 1 ["missing"]),
       ("d2", Unique_content.mk "d2" "s2" 1 ["b"])]).remove_duplicates
      [("s1", [0]), ("s2", [1]), ("b", [1])] = none ∧
    fsLookup [("s1", [0]), ("s2", [1]), ("b", [1])] "b" = some [1] := by
  refine ⟨by decide, by decide⟩

/-- C6, amended: if deleting a duplicate of a group fails, the error
propagates uncaught and `remove_duplicates` aborts the whole run at once:
no deletion is attempted for any remaining group, and no failure list is
collected — the result is the error outcome regardless of what the
remaining groups contain. -/
theorem claim6_failure_aborts_run (k : String) (g : Unique_content)
    (gs : List (String × Unique_content)) (fs : FS)
    (h : removeFiles fs g.rest.reverse = none) :
    removeGroups fs ((k, g) :: gs) = none := by
  simp only [removeGroups, h]

theorem claim6_witness :
    removeFiles [("s1", [0])] (Unique_content.mk "d1" "s1" 1 ["missing"]).rest.reverse
      = none ∧
    removeGroups [("s1", [0])]
      [("d1", Unique_content.mk "d1" "s1" 1 ["missing"]),
       ("d2", Unique_content.mk "d2" "s2" 1 ["b"])] = none :=
  ⟨by decide,
    claim6_failure_aborts_run "d1" (Unique_content.mk "d1" "s1" 1 ["missing"])
      [("d2", Unique_content.mk "d2" "s2" 1 ["b"])] [("s1", [0])] (by decide)⟩

/-- C9: `file_digest` is a deterministic function of file byte content —
whenever the contents read for the two paths coincide, the digests
coincide.  (The digest itself is the SHA-1 implementation `sha1hex`.) -/
theorem claim9_file_digest_deterministic (fs1 fs2 : FS) (p1 p2 : String)
    (h : fsLookup fs1 p1 = fsLookup fs2 p2) :
    file_digest fs1 p1 = file_digest fs2 p2 := by
  unfold file_digest
  rw [h]

theorem claim9_witness :
    fsLookup [("a", [104, 105]), ("b", [104, 105])] "a" =
      fsLookup [("a", [104, 105]), ("b", [104, 105])] "b" ∧
    file_digest [("a", [104, 105]), ("b", [104, 105])] "a" =
      file_digest [("a", [104, 105]), ("b", [104, 105])] "b" :=
  ⟨by decide,
    claim9_file_digest_deterministic
      [("a", [104, 105]), ("b", [104, 105])]
      [("a", [104, 105]), ("b", [104, 105])] "a" "b" (by decide)⟩

/-! ## Characterization of the tree walker -/

/-- The spec's characterization of the walker's output: `YieldsFile d e p`
holds exactly when `p` is the path of a regular, non-symlink file reached
from entry `e` of directory `d` by descending only through non-symlink
directories.  Symbolic links and other non-regular entries have no
constructor here: they are never yielded and never descended into. -/
inductive YieldsFile : String → Entry → String → Prop where
  | file (dirname nm : String) :
      YieldsFile dirname (.file nm) (pathJoin dirname nm)
  | dir (dirname nm : String) (cs : List Entry) (c : Entry) (p : String) :
      c ∈ cs → YieldsFile (pathJoin dirname nm) c p →
      YieldsFile dirname (.dir nm cs) p

theorem walkEntry_mem_iff_aux :
    ∀ n (e : Entry), sizeOf e ≤ n → ∀ dirname p,
      (p ∈ walkEntry dirname e ↔ YieldsFile dirname e p) := by
  intro n
  induction n with
  | zero =>
    intro e he
    exfalso
    cases e <;> simp_arith at he
  | succ n ih =>
    intro e he dirname p
    cases e with
    | file nm =>
      rw [walkEntry]
      simp only [Entry.isfile, Entry.islink, Entry.isdir, Entry.name]
      simp only [Bool.not_false, Bool.and_self, if_true, List.mem_singleton]
      constructor
      · rintro rfl
        exact YieldsFile.file dirname nm
      · rintro ⟨⟩
        rfl
    | dir nm cs =>
      rw [walkEntry]
      simp [Entry.isfile, Entry.islink, Entry.isdir, Entry.name,
        Entry.children]
      constructor
      · rintro ⟨c, hc, hp⟩
        have hlt : sizeOf c < sizeOf (Entry.dir nm cs) :=
          Entry.sizeOf_children_lt (by simpa [Entry.children] using hc)
        have hsz : sizeOf c ≤ n := by omega
        exact YieldsFile.dir dirname nm cs c p hc
          ((ih c hsz (pathJoin dirname nm) p).mp hp)
      · intro hy
        cases hy
        next c hc hyc =>
          have hlt : sizeOf c < sizeOf (Entry.dir nm cs) :=
            Entry.sizeOf_children_lt (by simpa [Entry.children] using hc)
          have hsz : sizeOf c ≤ n := by omega
          exact ⟨c, hc, (ih c hsz (pathJoin dirname nm) p).mpr hyc⟩
    | symlinkToFile nm =>
      rw [walkEntry]
      simp [Entry.isfile, Entry.islink, Entry.isdir, Entry.name]
      rintro ⟨⟩
    | symlinkToDir nm cs =>
      rw [walkEntry]
      simp [Entry.isfile, Entry.islink, Entry.isdir, Entry.name]
      rintro ⟨⟩
    | other nm =>
      rw [walkEntry]
      simp [Entry.isfile, Entry.islink, Entry.isdir, Entry.name]
      rintro ⟨⟩

theorem walkEntry_mem_iff (e : Entry) (dirname p : String) :
    p ∈ walkEntry dirname e ↔ YieldsFile dirname e p :=
  walkEntry_mem_iff_aux (sizeOf e) e (Nat.le_refl _) dirname p

/-- C8: `walk` yields exactly the paths of entries under the root that are
regular non-symlink files reachable by recursing only through non-symlink
directories; in particular symbolic links (to files or to directories) are
never yielded and never contribute any path, i.e. are not traversed. -/
theorem claim8_walk_mem_iff (dirname : String) (entries : List Entry)
    (p : String) :
    p ∈ walk dirname entries ↔ ∃ e ∈ entries, YieldsFile dirname e p := by
  unfold walk
  rw [List.mem_flatMap]
  constructor
  · rintro ⟨e, he, hp⟩
    exact ⟨e, he, (walkEntry_mem_iff e dirname p).mp hp⟩
  · rintro ⟨e, he, hy⟩
    exact ⟨e, he, (walkEntry_mem_iff e dirname p).mpr hy⟩

end RmDuplicates
